import Mathlib

/-!
Shallow embedding of `src/copng.cpp` (pngshrink): a chunked streaming PNG
transcoder.  Machine integers are modelled as `Nat`; the row buffer (a raw
`png_bytep` in the source) is modelled as a total function `Nat → Nat` from
byte index to byte value, with writes as pointwise function update.  Fallible
paths return `Except PngError`.
-/

namespace Copng

/-- Error kinds named by the spec (§7); only the ones exercised by the core
code are needed here. -/
inductive PngError where
  | InvalidSampleRate
  | IOReadError
deriving DecidableEq, Repr

/-! ## Chunk Reader (`Reader<bufSize>`, copng.cpp lines 54-93)

One `co_await imageReader` cycle: `await_ready` short-circuits when the buffer
is already full; otherwise `await_suspend` performs one `readsome` and decides
whether to suspend.  The byte source's answer to one `readsome` call is
modelled as a `ReadResult`: the number of bytes it produced and whether the
stream's fail flag is set afterwards. -/

/-- Outcome of one `imageStream.readsome` call: bytes read and the stream's
fail state. -/
structure ReadResult where
  numRead : Nat
  failFlag : Bool
deriving DecidableEq, Repr

/-- `Reader::await_ready` (line 63): true iff the buffer is already full. -/
def await_ready (bufSize totalRead : Nat) : Bool :=
  totalRead == bufSize

/-- `Reader::await_suspend` (lines 68-85).  Returns the suspend decision
(`true` = suspend and retry later) together with the updated `totalRead`;
throws (models as `.error`) when the stream failed after a nonzero read.
Note the source checks `numRead == 0` before `imageStream.fail()`. -/
def await_suspend (bufSize totalRead : Nat) (res : ReadResult) :
    Except PngError (Bool × Nat) :=
  if res.numRead = 0 then
    .ok (false, totalRead)
  else if res.failFlag then
    .error .IOReadError
  else
    let total := totalRead + res.numRead
    .ok (decide (total ≠ bufSize), total)

/-- One fill attempt of the Chunk Reader, i.e. one `co_await` of the
`Reader`: if `await_ready` holds the full buffer is returned at once and its
boolean (`true`) is the reported `moreAvailable`; otherwise `await_suspend`
runs one read and its returned boolean is the reported `moreAvailable`.
Result: accumulated byte count paired with `moreAvailable`. -/
def fill (bufSize totalRead : Nat) (res : ReadResult) :
    Except PngError (Nat × Bool) :=
  if await_ready bufSize totalRead then
    .ok (totalRead, true)
  else
    match await_suspend bufSize totalRead res with
    | .error e => .error e
    | .ok (susp, total) => .ok (total, susp)

/-! ## Row Transform (`PngReadWrite::row_callback`, copng.cpp lines 153-177)

The C++ loop over one retained row:
```
int writePos = 0;
for (int i = 0; i < rowWidth; i += sampleRate*channels) \x7b
  if (i + channels < rowWidth) \x7b
    for (int y = 0; y < channels; ++y)
      new_row[writePos+y] = new_row[i+y];
  \x7d
  writePos += channels;
\x7d
```
`copyPixelF` is the inner `y`-loop (bytewise, reading the current buffer
state exactly as the in-place C++ code does); `transformLoop` is the outer
loop, written with explicit fuel so that its termination is a provable fact
rather than an assumption (the source loop terminates because the stride
`sampleRate*channels` is positive).  `copyPixelAccesses`/`loopAccesses`
mirror the same two loops and record every (read index, write index) pair the
code dereferences, for the bounds-safety claims. -/

/-- Write one byte of the row buffer (pointer store `new_row[idx] = v`). -/
def writeByte (r : Nat → Nat) (idx v : Nat) : Nat → Nat :=
  fun p => if p = idx then v else r p

/-- Inner loop of `row_callback`: copy `c` channel bytes of the pixel starting
at `i` to write position `w`, byte by byte, in place. -/
def copyPixelF (c i w : Nat) (r : Nat → Nat) : Nat → Nat :=
  (List.range c).foldl (fun r y => writeByte r (w + y) (r (i + y))) r

/-- The (read index, write index) pairs dereferenced by `copyPixelF c i w`. -/
def copyPixelAccesses (c i w : Nat) : List (Nat × Nat) :=
  (List.range c).map (fun y => (i + y, w + y))

/-- Outer loop of `row_callback`: `i` is the pixel cursor, `w` the write
cursor (`writePos`); each iteration advances `i` by `s*c` and `w` by `c`,
copying only when the source's bounds check `i + c < rw` passes.  `fuel`
bounds the number of iterations; `none` means the fuel ran out (never happens
for positive stride, as proved below).  Returns the final buffer and the
final write cursor. -/
def transformLoop (s c rw : Nat) : Nat → Nat → (Nat → Nat) → Nat →
    Option ((Nat → Nat) × Nat)
  | i, w, r, fuel =>
    if i < rw then
      match fuel with
      | 0 => none
      | fuel + 1 =>
        let r' := if i + c < rw then copyPixelF c i w r else r
        transformLoop s c rw (i + s * c) (w + c) r' fuel
    else
      some (r, w)

/-- The (read index, write index) pairs dereferenced by the whole row
transform loop; mirrors `transformLoop` iteration for iteration. -/
def loopAccesses (s c rw : Nat) : Nat → Nat → Nat → Option (List (Nat × Nat))
  | i, w, fuel =>
    if i < rw then
      match fuel with
      | 0 => none
      | fuel + 1 =>
        match loopAccesses s c rw (i + s * c) (w + c) fuel with
        | none => none
        | some rest =>
            some ((if i + c < rw then copyPixelAccesses c i w else []) ++ rest)
    else
      some []

/-- The in-place row transform of `row_callback` for a retained row:
run the loop from `i = 0`, `writePos = 0` with ample fuel (`rw + 1` suffices
since the stride is ≥ 1 in every reachable configuration).  The fallback for
fuel exhaustion is unreachable under `1 ≤ s*c`. -/
def rowTransform (s c rw : Nat) (f : Nat → Nat) : (Nat → Nat) × Nat :=
  match transformLoop s c rw 0 0 f (rw + 1) with
  | some res => res
  | none => (f, 0)

/-! ## Decode-side callbacks and pipeline (copng.cpp lines 96-191, 240-271) -/

/-- The `userInfo` fields that drive row sampling (copng.cpp lines 98-107). -/
structure UserInfo where
  rowWidth : Nat
  channels : Nat
  sampleRate : Nat

/-- `PngReadWrite::row_callback` (lines 153-177): a row is transformed and
forwarded to `png_write_row` iff `row_num % sampleRate == 0`; `some bytes`
is the row handed to the encoder, `none` means the row was skipped. -/
def row_callback (info : UserInfo) (row_num : Nat) (new_row : Nat → Nat) :
    Option (Nat → Nat) :=
  if row_num % info.sampleRate = 0 then
    some (rowTransform info.sampleRate info.channels info.rowWidth new_row).1
  else
    none

/-- The header-validation and output-dimension computation of
`PngReadWrite::info_callback` (lines 131-139): rejects the sample rate when
either dimension is below it, otherwise yields the output dimensions
`(width / sampleRate, height / sampleRate)` (integer division). -/
def info_callback (sampleRate width height : Nat) :
    Except PngError (Nat × Nat) :=
  if width < sampleRate ∨ height < sampleRate then
    .error .InvalidSampleRate
  else
    .ok (width / sampleRate, height / sampleRate)

/-- The decoded-row stream as delivered by libpng's progressive reader:
`row_callback` fires once per row, with row indices strictly increasing from
`idx`.  Collects the (original index, forwarded bytes) pairs written to the
encoder, in write order. -/
def processRows (info : UserInfo) : Nat → List (Nat → Nat) →
    List (Nat × (Nat → Nat))
  | _, [] => []
  | idx, r :: rest =>
    match row_callback info idx r with
    | some out => (idx, out) :: processRows info (idx + 1) rest
    | none => processRows info (idx + 1) rest

/-- What the external decode engine hands the pipeline for one image:
header fields plus the decoded rows (each a byte function). -/
structure DecodedImage where
  width : Nat
  height : Nat
  channels : Nat
  rowWidth : Nat
  rows : List (Nat → Nat)

/-- Events written to the output sink, in order. -/
inductive OutEvent where
  | headerEv (w h : Nat)
  | rowEv (bytes : Nat → Nat)
  | endEv

/-- The whole transcode as a trace of output-sink events: `info_callback`
validates and writes the header first (nothing is written if it fails), then
each retained row is written by `row_callback`, then `end_callback` writes
the trailer.  Second component: the error that aborted the transcode, if
any. -/
def transcodeTrace (sampleRate : Nat) (img : DecodedImage) :
    List OutEvent × Option PngError :=
  if img.width < sampleRate ∨ img.height < sampleRate then
    ([], some .InvalidSampleRate)
  else
    let info : UserInfo :=
      { rowWidth := img.rowWidth, channels := img.channels,
        sampleRate := sampleRate }
    (OutEvent.headerEv (img.width / sampleRate) (img.height / sampleRate) ::
        ((processRows info 0 img.rows).map (fun pr => OutEvent.rowEv pr.2) ++
          [OutEvent.endEv]),
      none)

/-! ## Characterisation of the row transform -/

/-- Number of iterations of the outer loop: `ceil(rw / stride)`. -/
def numIters (rw stride : Nat) : Nat :=
  (rw + stride - 1) / stride

/-- Closed form of the byte at position `p` after the in-place transform:
position `p` lies in write slot `k = p / c`; if slot `k` is an iteration of
the loop whose bounds check passed, it received byte `k*(s*c) + p % c` of the
original row, otherwise it kept its original byte. -/
def specVal (s c rw : Nat) (f : Nat → Nat) (p : Nat) : Nat :=
  if p / c < numIters rw (s * c) ∧ (p / c) * (s * c) + c < rw then
    f ((p / c) * (s * c) + p % c)
  else
    f p

/-! ## Helper lemmas -/

/-- `k` is a loop iteration index iff its pixel cursor `k * stride` is still
inside the row. -/
theorem lt_numIters {st : Nat} (hst : 0 < st) (k rw : Nat) :
    k < numIters rw st ↔ k * st < rw := by
  unfold numIters
  rw [Nat.lt_iff_add_one_le, Nat.le_div_iff_mul_le hst, add_one_mul]
  omega

/-- Peeling the last byte copy off the inner loop. -/
theorem copyPixelF_succ (c i w : Nat) (r : Nat → Nat) :
    copyPixelF (c + 1) i w r =
      writeByte (copyPixelF c i w r) (w + c) (copyPixelF c i w r (i + c)) := by
  unfold copyPixelF
  rw [List.range_succ, List.foldl_append]
  rfl

/-- Bytewise effect of the inner copy loop, provided the write window
`[w, w+c)` either coincides with the read window start (`w = i`, the
in-place identity case) or lies entirely before it (`w + c ≤ i`): bytes in
the write window receive the corresponding original read bytes, all others
are untouched. -/
theorem copyPixelF_apply (c i w : Nat) (r : Nat → Nat) :
    (w = i ∨ w + c ≤ i) → ∀ p,
      copyPixelF c i w r p =
        if w ≤ p ∧ p < w + c then r (i + (p - w)) else r p := by
  induction c with
  | zero =>
    intro _ p
    have h : ¬ (w ≤ p ∧ p < w) := by omega
    simp [copyPixelF, h]
  | succ c ih =>
    intro hw p
    have hw' : w = i ∨ w + c ≤ i := by omega
    have hread : copyPixelF c i w r (i + c) = r (i + c) := by
      rw [ih hw' (i + c)]
      have h : ¬ (w ≤ i + c ∧ i + c < w + c) := by omega
      rw [if_neg h]
    rw [copyPixelF_succ, hread]
    unfold writeByte
    by_cases hp : p = w + c
    · subst hp
      have h1 : w ≤ w + c ∧ w + c < w + (c + 1) := by omega
      rw [if_pos rfl, if_pos h1]
      congr 1
      omega
    · rw [if_neg hp, ih hw' p]
      by_cases h2 : w ≤ p ∧ p < w + c
      · rw [if_pos h2, if_pos (by omega)]
      · rw [if_neg h2, if_neg (by omega)]

/-- Unfolding: the loop stops (returning buffer and write cursor) as soon as
the pixel cursor leaves the row. -/
theorem transformLoop_stop {s c rw i w fuel : Nat} (r : Nat → Nat)
    (h : ¬ i < rw) : transformLoop s c rw i w r fuel = some (r, w) := by
  rw [transformLoop.eq_def]
  dsimp only
  rw [if_neg h]

/-- Unfolding: one iteration of the loop while the pixel cursor is inside
the row. -/
theorem transformLoop_step {s c rw i w fuel : Nat} (r : Nat → Nat)
    (h : i < rw) :
    transformLoop s c rw i w r (fuel + 1) =
      transformLoop s c rw (i + s * c) (w + c)
        (if i + c < rw then copyPixelF c i w r else r) fuel := by
  rw [transformLoop.eq_def]
  dsimp only
  rw [if_pos h]

/-- `numIters` is exact: the iteration right after the last one starts at or
beyond the end of the row. -/
theorem numIters_mul_not_lt {st : Nat} (hst : 0 < st) (rw : Nat) :
    ¬ (numIters rw st * st < rw) := fun h =>
  absurd ((lt_numIters hst _ rw).mpr h) (Nat.lt_irrefl _)

/-- Master invariant of the outer loop, entered at iteration `k` (pixel
cursor `k*(s*c)`, write cursor `k*c`) with a buffer that is still original
from the write cursor on and already finalised below it: with enough fuel
the loop completes, the final write cursor is `numIters rw (s*c) * c`, and
the final buffer is `specVal` everywhere. -/
theorem transformLoop_spec (s c rw : Nat) (hs : 1 ≤ s) (hc : 1 ≤ c)
    (f : Nat → Nat) :
    ∀ fuel k r, numIters rw (s * c) - k ≤ fuel → k ≤ numIters rw (s * c) →
      (∀ p, k * c ≤ p → r p = f p) →
      (∀ p, p < k * c → r p = specVal s c rw f p) →
      ∃ g, transformLoop s c rw (k * (s * c)) (k * c) r fuel =
             some (g, numIters rw (s * c) * c) ∧
           ∀ p, g p = specVal s c rw f p := by
  have hst : 0 < s * c := Nat.mul_pos hs hc
  have exit : ∀ fuel r, (∀ p, numIters rw (s * c) * c ≤ p → r p = f p) →
      (∀ p, p < numIters rw (s * c) * c → r p = specVal s c rw f p) →
      ∃ g, transformLoop s c rw (numIters rw (s * c) * (s * c))
             (numIters rw (s * c) * c) r fuel =
             some (g, numIters rw (s * c) * c) ∧
           ∀ p, g p = specVal s c rw f p := by
    intro fuel r hinv hbelow
    refine ⟨r, transformLoop_stop r (numIters_mul_not_lt hst rw), ?_⟩
    intro p
    by_cases hp : p < numIters rw (s * c) * c
    · exact hbelow p hp
    · have hnp : numIters rw (s * c) * c ≤ p := Nat.le_of_not_lt hp
      rw [hinv p hnp]
      have hdiv : numIters rw (s * c) ≤ p / c :=
        (Nat.le_div_iff_mul_le hc).mpr hnp
      unfold specVal
      rw [if_neg (fun h => absurd h.1 (Nat.not_lt.mpr hdiv))]
  intro fuel
  induction fuel with
  | zero =>
    intro k r hfuel hk hinv hbelow
    have hkn : k = numIters rw (s * c) := by omega
    subst hkn
    exact exit 0 r hinv hbelow
  | succ fuel ih =>
    intro k r hfuel hk hinv hbelow
    by_cases hkn : k = numIters rw (s * c)
    · subst hkn
      exact exit (fuel + 1) r hinv hbelow
    · have hklt : k < numIters rw (s * c) := by omega
      have hi : k * (s * c) < rw := (lt_numIters hst k rw).mp hklt
      rw [transformLoop_step r hi]
      have e1 : k * (s * c) + s * c = (k + 1) * (s * c) := by ring
      have e2 : k * c + c = (k + 1) * c := by ring
      rw [e1, e2]
      -- the write window of this iteration starts at the pixel cursor or
      -- ends before it
      have hw : k * c = k * (s * c) ∨ k * c + c ≤ k * (s * c) := by
        rcases Nat.eq_or_lt_of_le hs with hs1 | hs2
        · left
          rw [← hs1, one_mul]
        · rcases Nat.eq_zero_or_pos k with hk0 | hk1
          · left
            rw [hk0]
            simp
          · right
            have h2 : k * 2 ≤ k * s := Nat.mul_le_mul (Nat.le_refl k) hs2
            have h3 : k + 1 ≤ k * s := by omega
            calc k * c + c = (k + 1) * c := by ring
              _ ≤ k * s * c := Nat.mul_le_mul h3 (Nat.le_refl c)
              _ = k * (s * c) := by ring
      have hcs : k * c ≤ k * (s * c) :=
        Nat.mul_le_mul (Nat.le_refl k) (Nat.le_mul_of_pos_left c hs)
      by_cases hg : k * (s * c) + c < rw
      · rw [if_pos hg]
        refine ih (k + 1) (copyPixelF c (k * (s * c)) (k * c) r)
          (by omega) (by omega) ?_ ?_
        · intro p hp
          rw [copyPixelF_apply c (k * (s * c)) (k * c) r hw p,
            if_neg (by omega)]
          exact hinv p (by omega)
        · intro p hp
          rw [copyPixelF_apply c (k * (s * c)) (k * c) r hw p]
          by_cases hlo : k * c ≤ p
          · rw [if_pos ⟨hlo, by omega⟩]
            have hr : k * c ≤ k * (s * c) + (p - k * c) := by omega
            rw [hinv _ hr]
            have hy : p - k * c < c := by omega
            have hdiv : p / c = k := by
              rw [show p = (p - k * c) + k * c by omega,
                Nat.add_mul_div_right _ _ hc, Nat.div_eq_of_lt hy]
              omega
            have hmod : p % c = p - k * c := by
              rw [show p = (p - k * c) + k * c by omega,
                Nat.add_mul_mod_self_right, Nat.mod_eq_of_lt hy]
              omega
            unfold specVal
            rw [hdiv, hmod, if_pos ⟨hklt, hg⟩]
          · rw [if_neg (fun h => hlo h.1)]
            exact hbelow p (by omega)
      · rw [if_neg hg]
        refine ih (k + 1) r (by omega) (by omega) ?_ ?_
        · intro p hp
          exact hinv p (by omega)
        · intro p hp
          by_cases hlo : k * c ≤ p
          · rw [hinv p hlo]
            have hy : p - k * c < c := by omega
            have hdiv : p / c = k := by
              rw [show p = (p - k * c) + k * c by omega,
                Nat.add_mul_div_right _ _ hc, Nat.div_eq_of_lt hy]
              omega
            unfold specVal
            rw [hdiv, if_neg (fun h => hg h.2)]
          · exact hbelow p (by omega)

/-- Iteration count never exceeds the row width (so `rw + 1` fuel always
suffices). -/
theorem numIters_le {st : Nat} (hst : 0 < st) (rw : Nat) :
    numIters rw st ≤ rw := by
  by_contra hlt
  have h1 : rw < numIters rw st := Nat.lt_of_not_le hlt
  have h2 : rw * st < rw := (lt_numIters hst rw rw).mp h1
  have h3 : rw ≤ rw * st := Nat.le_mul_of_pos_right rw hst
  omega

/-- The row transform of a retained row: the final write cursor is
`numIters rw (s*c) * c` and the final buffer is `specVal` pointwise. -/
theorem rowTransform_spec (s c rw : Nat) (hs : 1 ≤ s) (hc : 1 ≤ c)
    (f : Nat → Nat) :
    (rowTransform s c rw f).2 = numIters rw (s * c) * c ∧
      ∀ p, (rowTransform s c rw f).1 p = specVal s c rw f p := by
  have hst : 0 < s * c := Nat.mul_pos hs hc
  have hn : numIters rw (s * c) ≤ rw := numIters_le hst rw
  obtain ⟨g, hloop, hg⟩ := transformLoop_spec s c rw hs hc f (rw + 1) 0 f
    (by omega) (by omega) (fun p _ => rfl) (fun p hp => absurd hp (by omega))
  unfold rowTransform
  rw [show (0 : Nat) * (s * c) = 0 by ring, show (0 : Nat) * c = 0 by ring]
    at hloop
  rw [hloop]
  exact ⟨rfl, hg⟩

/-- At sample rate 1 the closed form is the original byte everywhere. -/
theorem specVal_one (c rw : Nat) (f : Nat → Nat) (p : Nat) :
    specVal 1 c rw f p = f p := by
  unfold specVal
  split
  · congr 1
    have h := Nat.div_add_mod p c
    calc p / c * (1 * c) + p % c = c * (p / c) + p % c := by ring
      _ = p := h
  · rfl

/-- At sample rate 1 the row transform does not change a single byte: each
copy writes a byte onto itself. -/
theorem rowTransform_one (c rw : Nat) (hc : 1 ≤ c) (f : Nat → Nat) :
    (rowTransform 1 c rw f).1 = f := by
  funext p
  rw [(rowTransform_spec 1 c rw (Nat.le_refl 1) hc f).2 p, specVal_one]

/-- Membership in the forwarded-row list: exactly the indices in
`[idx, idx + length)` that the sampling predicate accepts, each paired with
its transformed bytes. -/
theorem processRows_mem_iff (info : UserInfo) :
    ∀ (rows : List (Nat → Nat)) (idx r : Nat),
      ((∃ out, (r, out) ∈ processRows info idx rows) ↔
        idx ≤ r ∧ r < idx + rows.length ∧ r % info.sampleRate = 0) := by
  intro rows
  induction rows with
  | nil =>
    intro idx r
    constructor
    · rintro ⟨out, hout⟩
      simp [processRows] at hout
    · intro h
      simp at h
      omega
  | cons hd tl ih =>
    intro idx r
    unfold processRows row_callback
    by_cases hidx : idx % info.sampleRate = 0
    · rw [if_pos hidx]
      constructor
      · rintro ⟨out, hout⟩
        rcases List.mem_cons.mp hout with heq | hmem
        · have h1 : r = idx := congrArg Prod.fst heq
          subst h1
          simpa using hidx
        · have := (ih (idx + 1) r).mp ⟨out, hmem⟩
          simp only [List.length_cons]
          omega
      · rintro ⟨h1, h2, h3⟩
        by_cases hr : r = idx
        · subst hr
          exact ⟨_, List.mem_cons_self _ _⟩
        · obtain ⟨out, hout⟩ := (ih (idx + 1) r).mpr
            (by simp only [List.length_cons] at h2; omega)
          exact ⟨out, List.mem_cons_of_mem _ hout⟩
    · rw [if_neg hidx]
      constructor
      · rintro ⟨out, hout⟩
        have := (ih (idx + 1) r).mp ⟨out, hout⟩
        simp only [List.length_cons]
        omega
      · rintro ⟨h1, h2, h3⟩
        have hr : r ≠ idx := fun he => hidx (he ▸ h3)
        obtain ⟨out, hout⟩ := (ih (idx + 1) r).mpr
          (by simp only [List.length_cons] at h2; omega)
        exact ⟨out, hout⟩

/-- Every forwarded pair carries an index at or after the starting index. -/
theorem processRows_idx_le (info : UserInfo) :
    ∀ (rows : List (Nat → Nat)) (idx : Nat) (pr : Nat × (Nat → Nat)),
      pr ∈ processRows info idx rows → idx ≤ pr.1 := by
  intro rows idx pr hpr
  obtain ⟨h1, -, -⟩ := (processRows_mem_iff info rows idx pr.1).mp ⟨pr.2, hpr⟩
  exact h1

/-- Forwarded rows are emitted in strictly increasing original-index
order. -/
theorem processRows_pairwise (info : UserInfo) :
    ∀ (rows : List (Nat → Nat)) (idx : Nat),
      List.Pairwise (fun a b => a.1 < b.1) (processRows info idx rows) := by
  intro rows
  induction rows with
  | nil =>
    intro idx
    simp [processRows]
  | cons hd tl ih =>
    intro idx
    unfold processRows
    cases hcb : row_callback info idx hd with
    | none => exact ih (idx + 1)
    | some out =>
      refine List.Pairwise.cons ?_ (ih (idx + 1))
      intro b hb
      have := processRows_idx_le info tl (idx + 1) b hb
      omega

/-- At sample rate 1 every row is forwarded, in order, with its bytes
untouched. -/
theorem processRows_one (rw c : Nat) (hc : 1 ≤ c) :
    ∀ (rows : List (Nat → Nat)) (idx : Nat),
      processRows ⟨rw, c, 1⟩ idx rows =
        (List.range' idx rows.length).zip rows := by
  intro rows
  induction rows with
  | nil =>
    intro idx
    simp [processRows]
  | cons hd tl ih =>
    intro idx
    unfold processRows row_callback
    rw [if_pos (Nat.mod_one idx)]
    simp only [List.length_cons, List.range'_succ, List.zip_cons_cons]
    rw [ih (idx + 1)]
    simp [rowTransform_one c rw hc hd]

/-- All pointer accesses of the transform loop, entered with the write cursor
at or before the pixel cursor and enough fuel, stay strictly below `rw`. -/
theorem loopAccesses_bounds (s c rw : Nat) (hs : 1 ≤ s) :
    ∀ (fuel i w : Nat), w ≤ i → rw ≤ i + fuel * (s * c) →
      ∃ l, loopAccesses s c rw i w fuel = some l ∧
        ∀ pr ∈ l, pr.1 < rw ∧ pr.2 < rw := by
  intro fuel
  induction fuel with
  | zero =>
    intro i w hwi hfuel
    have h : ¬ i < rw := by omega
    refine ⟨[], ?_, by simp⟩
    rw [loopAccesses.eq_def]
    dsimp only
    rw [if_neg h]
  | succ fuel ih =>
    intro i w hwi hfuel
    by_cases h : i < rw
    · have hcsc : c ≤ s * c := Nat.le_mul_of_pos_left c hs
      obtain ⟨l, hl, hbound⟩ := ih (i + s * c) (w + c) (by omega)
        (by have : (fuel + 1) * (s * c) = fuel * (s * c) + s * c := by ring
            omega)
      refine ⟨(if i + c < rw then copyPixelAccesses c i w else []) ++ l, ?_, ?_⟩
      · rw [loopAccesses.eq_def]
        dsimp only
        rw [if_pos h, hl]
      · intro pr hpr
        rcases List.mem_append.mp hpr with hmem | hmem
        · by_cases hg : i + c < rw
          · rw [if_pos hg] at hmem
            obtain ⟨y, hy, hpr_eq⟩ := List.mem_map.mp hmem
            have hyc : y < c := List.mem_range.mp hy
            rw [← hpr_eq]
            constructor <;> simp <;> omega
          · rw [if_neg hg] at hmem
            simp at hmem
        · exact hbound pr hmem
    · refine ⟨[], ?_, by simp⟩
      rw [loopAccesses.eq_def]
      dsimp only
      rw [if_neg h]

/-! ## Claim theorems -/

/-- Concrete row for the exact-fit boundary case: rowWidth 3, 1 channel,
sample rate 2.  The trailing pixel starts at index 2 and fits exactly:
2 + 1 = 3 = rowWidth. -/
def rowExactFit : Nat → Nat := fun p => [10, 20, 30].getD p 0

/-- C1: the spec requires an exact-fit trailing pixel (start index `i` with
`i + channelCount = rowByteWidth`) to be retained and copied.  The code's
strict bounds check `i + channels < rowWidth` drops it: on the row
`[10, 20, 30]` with sampleRate 2 and 1 channel, the trailing pixel at index
2 fits exactly, yet its write slot (byte 1 of the produced 2-byte row) still
holds the original byte 20, not the pixel byte 30. -/
theorem c1_exact_fit_trailing_pixel_dropped :
    (rowTransform 2 1 3 rowExactFit).2 = 2 ∧
    (rowTransform 2 1 3 rowExactFit).1 1 = 20 ∧
    (rowTransform 2 1 3 rowExactFit).1 1 ≠ 30 :=
  ⟨rfl, rfl, by decide⟩

/-- C2: a decoded row `r` is forwarded to the encoder iff
`r % sampleRate = 0`, and the forwarded rows appear in strictly increasing
original-index order. -/
theorem c2_forward_iff_and_increasing (info : UserInfo)
    (rows : List (Nat → Nat)) :
    (∀ r, r < rows.length →
      ((∃ out, (r, out) ∈ processRows info 0 rows) ↔
        r % info.sampleRate = 0)) ∧
    List.Pairwise (fun a b => a.1 < b.1) (processRows info 0 rows) := by
  constructor
  · intro r hr
    rw [processRows_mem_iff info rows 0 r]
    exact ⟨fun h => h.2.2, fun h => ⟨Nat.zero_le r, by omega, h⟩⟩
  · exact processRows_pairwise info rows 0

/-- Image used as the C3 witness (2×2, sample rate larger than both
dimensions). -/
def imgTiny : DecodedImage := ⟨2, 2, 1, 2, []⟩

/-- C3: when `sampleRate > min(width, height)` the transcode fails with
`InvalidSampleRate` and the output trace is empty — in particular no row
(and not even the header) has been written. -/
theorem c3_invalid_rate_fails_before_output (sampleRate : Nat)
    (img : DecodedImage) (h : min img.width img.height < sampleRate) :
    transcodeTrace sampleRate img = ([], some PngError.InvalidSampleRate) := by
  unfold transcodeTrace
  rw [if_pos (min_lt_iff.mp h)]

/-- Witness for C3 at a concrete input. -/
theorem c3_witness :
    min imgTiny.width imgTiny.height < 5 ∧
      transcodeTrace 5 imgTiny = ([], some PngError.InvalidSampleRate) :=
  ⟨by decide, c3_invalid_rate_fails_before_output 5 imgTiny (by decide)⟩

/-- C4: for a valid sample rate (`sampleRate ≤ min(width, height)`) the
header event carries output dimensions `width / sampleRate` and
`height / sampleRate` (floor division), and it is the first output event. -/
theorem c4_output_dimensions (sampleRate : Nat) (img : DecodedImage)
    (h : sampleRate ≤ min img.width img.height) :
    info_callback sampleRate img.width img.height =
      .ok (img.width / sampleRate, img.height / sampleRate) ∧
    (transcodeTrace sampleRate img).1.head? =
      some (OutEvent.headerEv (img.width / sampleRate)
        (img.height / sampleRate)) := by
  have hcond : ¬ (img.width < sampleRate ∨ img.height < sampleRate) := by
    rcases le_min_iff.mp h with ⟨h1, h2⟩
    omega
  constructor
  · unfold info_callback
    rw [if_neg hcond]
  · unfold transcodeTrace
    rw [if_neg hcond]
    rfl

/-- Image used as the C4 witness (8×8). -/
def img88 : DecodedImage := ⟨8, 8, 1, 8, []⟩

/-- Witness for C4 at a concrete input. -/
theorem c4_witness :
    2 ≤ min img88.width img88.height ∧
      info_callback 2 img88.width img88.height = .ok (4, 4) :=
  ⟨by decide, (c4_output_dimensions 2 img88 (by decide)).1⟩

/-- C5 counterexample: the source reports a read error (`failFlag = true`)
on a fill attempt, yet because zero bytes were read the code's
`numRead == 0` branch runs first and the fill returns a normal
end-of-stream result (`moreAvailable = false`) instead of failing with
`IOReadError`. -/
theorem c5_read_error_masked_as_eof :
    fill 1024 5 ⟨0, true⟩ = .ok (5, false) ∧
      fill 1024 5 ⟨0, true⟩ ≠ .error PngError.IOReadError :=
  ⟨rfl, fun h => Except.noConfusion h⟩

/-- C5 (amended): on a fill attempt with room in the buffer, a read error
accompanied by a nonzero byte count fails the transcode with `IOReadError`;
a read error accompanied by a zero byte count is reported as a normal
end-of-stream result (accumulated bytes, `moreAvailable = false`). -/
theorem c5_amended_read_error_handling (bufSize totalRead : Nat)
    (res : ReadResult) (hlt : totalRead < bufSize)
    (herr : res.failFlag = true) :
    (res.numRead ≠ 0 →
      fill bufSize totalRead res = .error PngError.IOReadError) ∧
    (res.numRead = 0 → fill bufSize totalRead res = .ok (totalRead, false)) := by
  have hready : ¬ (await_ready bufSize totalRead = true) := by
    unfold await_ready
    simp only [beq_iff_eq]
    omega
  constructor
  · intro hnz
    unfold fill await_suspend
    rw [if_neg hready, if_neg hnz, if_pos herr]
  · intro hz
    unfold fill await_suspend
    rw [if_neg hready, if_pos hz]

/-- Witness for the amended C5 at concrete inputs: both read-error shapes. -/
theorem c5_witness :
    fill 4 2 ⟨1, true⟩ = .error PngError.IOReadError ∧
      fill 4 2 ⟨0, true⟩ = .ok (2, false) :=
  ⟨(c5_amended_read_error_handling 4 2 ⟨1, true⟩ (by decide) rfl).1
      (by decide),
    (c5_amended_read_error_handling 4 2 ⟨0, true⟩ (by decide) rfl).2 rfl⟩

/-- C6: the fill contract.  A full buffer is returned immediately with
`moreAvailable = true` whatever the source would answer (no read happens);
a zero-byte read yields the accumulated bytes with `moreAvailable = false`;
otherwise the bytes are accumulated and `moreAvailable` is `true` exactly
when the buffer is still not full. -/
theorem c6_fill_contract (bufSize totalRead : Nat) (res : ReadResult)
    (_hle : totalRead ≤ bufSize) :
    (totalRead = bufSize → fill bufSize totalRead res = .ok (totalRead, true)) ∧
    (totalRead < bufSize → res.numRead = 0 →
      fill bufSize totalRead res = .ok (totalRead, false)) ∧
    (totalRead < bufSize → res.numRead ≠ 0 → res.failFlag = false →
      totalRead + res.numRead ≤ bufSize →
      ((totalRead + res.numRead < bufSize →
          fill bufSize totalRead res = .ok (totalRead + res.numRead, true)) ∧
        (totalRead + res.numRead = bufSize →
          fill bufSize totalRead res = .ok (totalRead + res.numRead, false)))) := by
  refine ⟨?_, ?_, ?_⟩
  · intro heq
    have hready : await_ready bufSize totalRead = true := by
      unfold await_ready
      simp [heq]
    unfold fill
    rw [if_pos hready]
  · intro hlt hz
    have hready : ¬ (await_ready bufSize totalRead = true) := by
      unfold await_ready
      simp only [beq_iff_eq]
      omega
    unfold fill await_suspend
    rw [if_neg hready, if_pos hz]
  · intro hlt hnz hok hsum
    have hready : ¬ (await_ready bufSize totalRead = true) := by
      unfold await_ready
      simp only [beq_iff_eq]
      omega
    constructor
    · intro hstill
      have hne : decide (totalRead + res.numRead ≠ bufSize) = true := by
        simp only [decide_eq_true_eq]
        omega
      unfold fill await_suspend
      rw [if_neg hready, if_neg hnz, if_neg (by simp [hok])]
      dsimp only
      rw [hne]
    · intro hfull
      have hne : decide (totalRead + res.numRead ≠ bufSize) = false := by
        simp only [decide_eq_false_iff_not]
        omega
      unfold fill await_suspend
      rw [if_neg hready, if_neg hnz, if_neg (by simp [hok])]
      dsimp only
      rw [hne]

/-- Witness for C6 at concrete inputs: all four contract shapes. -/
theorem c6_witness :
    fill 4 4 ⟨3, true⟩ = .ok (4, true) ∧
      fill 4 2 ⟨0, false⟩ = .ok (2, false) ∧
      fill 4 2 ⟨1, false⟩ = .ok (3, true) ∧
      fill 4 2 ⟨2, false⟩ = .ok (4, false) :=
  ⟨(c6_fill_contract 4 4 ⟨3, true⟩ (by decide)).1 rfl,
    (c6_fill_contract 4 2 ⟨0, false⟩ (by decide)).2.1 (by decide) rfl,
    ((c6_fill_contract 4 2 ⟨1, false⟩ (by decide)).2.2 (by decide) (by decide)
        rfl (by decide)).1 (by decide),
    ((c6_fill_contract 4 2 ⟨2, false⟩ (by decide)).2.2 (by decide) (by decide)
        rfl (by decide)).2 rfl⟩

/-- Row bytes `[0,1,2,3,4,5,6,7]` for the C7 scenario. -/
def row07 : Nat → Nat := fun p => [0, 1, 2, 3, 4, 5, 6, 7].getD p 0

/-- The 8×8, 1-channel image of the C7 scenario, every row
`[0,1,2,3,4,5,6,7]`. -/
def img8 : DecodedImage := ⟨8, 8, 1, 8, List.replicate 8 row07⟩

/-- The row-sampling context of the C7 scenario (rowWidth 8, 1 channel,
sample rate 2). -/
def info8 : UserInfo := ⟨8, 1, 2⟩

/-- C7: scenario 8×8, 1 channel, sampleRate 2, every row
`[0,1,2,3,4,5,6,7]`: exactly rows 0, 2, 4, 6 are retained, each retained
row's produced 4 bytes are `[0,2,4,6]`, and the header event reports 4×4. -/
theorem c7_scenario_8x8_rate2 :
    (processRows info8 0 img8.rows).map Prod.fst = [0, 2, 4, 6] ∧
    (processRows info8 0 img8.rows).map (fun pr => (List.range 4).map pr.2) =
      List.replicate 4 [0, 2, 4, 6] ∧
    (transcodeTrace 2 img8).1.head? = some (OutEvent.headerEv 4 4) ∧
    (transcodeTrace 2 img8).2 = none :=
  ⟨by decide, by decide, rfl, rfl⟩

/-- C8: at sampleRate 1 every decoded row is forwarded, in original order
and with its bytes untouched, and the header event carries the input
dimensions unchanged — the output is the decoded input reshaped through the
same header. -/
theorem c8_rate_one_identity (img : DecodedImage) (hw : 1 ≤ img.width)
    (hh : 1 ≤ img.height) (hc : 1 ≤ img.channels) :
    ((processRows ⟨img.rowWidth, img.channels, 1⟩ 0 img.rows).map Prod.fst =
      List.range img.rows.length) ∧
    ((processRows ⟨img.rowWidth, img.channels, 1⟩ 0 img.rows).map Prod.snd =
      img.rows) ∧
    (transcodeTrace 1 img).1.head? =
      some (OutEvent.headerEv img.width img.height) ∧
    (transcodeTrace 1 img).2 = none := by
  have hz := processRows_one img.rowWidth img.channels hc img.rows 0
  have hlen : (List.range' 0 img.rows.length).length = img.rows.length := by
    simp
  have hcond : ¬ (img.width < 1 ∨ img.height < 1) := by omega
  refine ⟨?_, ?_, ?_, ?_⟩
  · rw [hz, List.map_fst_zip _ _ (le_of_eq hlen), ← List.range_eq_range']
  · rw [hz, List.map_snd_zip _ _ (ge_of_eq hlen)]
  · unfold transcodeTrace
    rw [if_neg hcond]
    simp [Nat.div_one]
  · unfold transcodeTrace
    rw [if_neg hcond]

/-- Image used as the C8 witness: 2×2, 1 channel, two distinct rows. -/
def imgId : DecodedImage := ⟨2, 2, 1, 2, [fun p => p, fun p => p + 1]⟩

/-- Witness for C8 at a concrete input: the forwarded bytes are the decoded
rows themselves. -/
theorem c8_witness :
    (1 ≤ imgId.width ∧ 1 ≤ imgId.height ∧ 1 ≤ imgId.channels) ∧
      (processRows ⟨imgId.rowWidth, imgId.channels, 1⟩ 0 imgId.rows).map
          Prod.snd = imgId.rows :=
  ⟨⟨by decide, by decide, by decide⟩,
    (c8_rate_one_identity imgId (by decide) (by decide) (by decide)).2.1⟩

/-- C9: the write cursor advances by `channels` on every stride iteration
whether or not the bounds check passed, so the produced row spans
`ceil(rw / (s*c)) * c` bytes; when the final strided pixel fails the bounds
check, the last `c` bytes of the produced row are the row buffer's original
bytes at those positions (no retained pixel was copied there). -/
theorem c9_dropped_final_pixel_leaves_stale_bytes (s c rw : Nat)
    (f : Nat → Nat) (hs : 1 ≤ s) (hc : 1 ≤ c) (_hrw : 1 ≤ rw)
    (hlast : ¬ ((numIters rw (s * c) - 1) * (s * c) + c < rw)) :
    (rowTransform s c rw f).2 = numIters rw (s * c) * c ∧
    ∀ y, y < c →
      (rowTransform s c rw f).1 ((numIters rw (s * c) - 1) * c + y) =
        f ((numIters rw (s * c) - 1) * c + y) := by
  obtain ⟨h2, h1⟩ := rowTransform_spec s c rw hs hc f
  refine ⟨h2, ?_⟩
  intro y hy
  rw [h1]
  have hdiv : ((numIters rw (s * c) - 1) * c + y) / c =
      numIters rw (s * c) - 1 := by
    rw [show (numIters rw (s * c) - 1) * c + y =
        y + (numIters rw (s * c) - 1) * c by ring,
      Nat.add_mul_div_right _ _ hc, Nat.div_eq_of_lt hy]
    omega
  unfold specVal
  rw [hdiv, if_neg (fun h => hlast h.2)]

/-- Witness for C9 at a concrete input: rowWidth 3, 1 channel, sample rate
2; the final strided pixel (index 2, exact fit) fails the check and byte 1
of the produced 2-byte row is the original byte. -/
theorem c9_witness :
    (rowTransform 2 1 3 (fun p => p + 40)).2 = 2 ∧
      (rowTransform 2 1 3 (fun p => p + 40)).1 1 = 41 :=
  ⟨(c9_dropped_final_pixel_leaves_stale_bytes 2 1 3 (fun p => p + 40)
      (by decide) (by decide) (by decide) (by decide)).1,
    (c9_dropped_final_pixel_leaves_stale_bytes 2 1 3 (fun p => p + 40)
      (by decide) (by decide) (by decide) (by decide)).2 0 (by decide)⟩

/-- C10: for positive row width, channel count and sample rate, the
row-transform loop terminates (rw + 1 fuel is never exhausted, since the
stride `s*c` is positive), and every pointer access it performs — read index
`i + y` and write index `writePos + y` — is strictly below `rw`. -/
theorem c10_terminates_and_in_bounds (s c rw : Nat) (f : Nat → Nat)
    (hs : 1 ≤ s) (hc : 1 ≤ c) (_hrw : 1 ≤ rw) :
    (transformLoop s c rw 0 0 f (rw + 1)).isSome = true ∧
    ∃ l, loopAccesses s c rw 0 0 (rw + 1) = some l ∧
      ∀ pr ∈ l, pr.1 < rw ∧ pr.2 < rw := by
  have hst : 0 < s * c := Nat.mul_pos hs hc
  constructor
  · have hn : numIters rw (s * c) ≤ rw := numIters_le hst rw
    obtain ⟨g, hloop, -⟩ := transformLoop_spec s c rw hs hc f (rw + 1) 0 f
      (by omega) (by omega) (fun p _ => rfl) (fun p hp => absurd hp (by omega))
    rw [show (0 : Nat) * (s * c) = 0 by ring, show (0 : Nat) * c = 0 by ring]
      at hloop
    rw [hloop]
    rfl
  · refine loopAccesses_bounds s c rw hs (rw + 1) 0 0 (Nat.le_refl 0) ?_
    have := Nat.le_mul_of_pos_right (rw + 1) hst
    omega

/-- Witness for C10 at a concrete input. -/
theorem c10_witness :
    (transformLoop 1 1 1 0 0 (fun _ => 0) 2).isSome = true :=
  (c10_terminates_and_in_bounds 1 1 1 (fun _ => 0) (by decide) (by decide)
    (by decide)).1

end Copng
